import Mathlib

/-!
# Verification of the Synapse context-chain builder

Shallow embedding of the context-chain core of the Synapse Obsidian plugin:

* `contextBuilder.ts` (`ContextBuilder`): the BFS auto-context builder
  (`buildAutoContextChain`), the link-graph resolution
  (`getConnectedFiles`, `getOutgoingLinks`, `getBacklinks`) and the
  formatter (`formatNotes`, `formatSingleNote`, link stripping via the
  regex `/\[\[.*?\]\]/g`).
* `branchStore.ts` (`BranchStore`): the persistent user-ordered branch list.
* `main.ts` (`SynapsePlugin.processThought` / `generateResponse`): the
  per-call context-strategy selection.

Conventions of the embedding:

* A TypeScript `TFile` is a record of its stable path and display basename.
* Obsidian's `metadataCache.resolvedLinks` is a `Record<string, Record<string,
  number>>`; JavaScript object keys enumerate in insertion order, so each
  record is modelled as an association list in that order.  The inner record
  maps a target path to a positive link count; the embedding keeps the key
  list only (a key is present iff at least one link resolves to it), which is
  exactly what the source reads from it (`for targetPath in resolved`,
  truthiness of `links[file.path]`).
* `metadataCache.getBacklinksForFile` is an optional undocumented API; it is
  modelled as an optional association list from a file path to the key list
  of the returned `data` record.
* A JavaScript `Map` keyed by path is modelled as a list of files with
  pairwise distinct paths in insertion order: `set` replaces in place,
  `delete` removes, `Array.from(map.values())` is the list itself.
* `vault.getAbstractFileByPath` is the first file in the vault with the
  given path (`none` when the path does not resolve to a markdown file).
-/

/-- A document handle: stable path plus display name
(the two fields of `TFile` that `contextBuilder.ts` reads). -/
structure TFile where
  path : String
  basename : String
deriving DecidableEq, Repr

/-- The external world visible to `ContextBuilder`: the vault's files, their
current contents, the resolved-link index and the optional backlink cache. -/
structure Vault where
  files : List TFile
  contents : List (String × String)
  resolvedLinks : List (String × List String)
  backlinkCache : Option (List (String × List String))
deriving Repr

/-- `ContextBuilder`'s configuration (`this.maxDepth`, `this.maxAutoNotes`).
Kept as integers: the TypeScript fields are `number`s that may be set to
out-of-range values by `updateSettings`. -/
structure BuilderConfig where
  maxDepth : Int
  maxAutoNotes : Int
deriving Repr

/-- Association-list lookup standing in for a JavaScript object property
read (`object[key] ?? fallback`). -/
def alistLookup (al : List (String × List String)) (key : String) : List String :=
  match al.find? (fun e => e.1 = key) with
  | some e => e.2
  | none => []

/-- `this.app.vault.getAbstractFileByPath(path)` followed by the
`instanceof TFile` check (`ContextBuilder.fileFromPath`). -/
def fileFromPath (v : Vault) (path : String) : Option TFile :=
  v.files.find? (fun f => f.path = path)

/-- `bucket.set(f.path, f)` on a JavaScript `Map` in insertion order:
replace the entry whose key is `f.path` if present, otherwise append. -/
def mapSet (m : List TFile) (f : TFile) : List TFile :=
  if m.any (fun g => g.path = f.path) then
    m.map (fun g => if g.path = f.path then f else g)
  else
    m ++ [f]

/-- `ContextBuilder.getOutgoingLinks`: the resolved targets of `file` that
exist in the vault, in resolved-link key order. -/
def getOutgoingLinks (v : Vault) (file : TFile) : List TFile :=
  (alistLookup v.resolvedLinks file.path).filterMap (fileFromPath v)

/-- `ContextBuilder.collectBacklinksFromCache`: when the undocumented
`getBacklinksForFile` API exists, add every resolvable key of its `data`
record to the bucket. -/
def collectBacklinksFromCache (v : Vault) (file : TFile) (bucket : List TFile) :
    List TFile :=
  match v.backlinkCache with
  | none => bucket
  | some cache =>
      ((alistLookup cache file.path).filterMap (fileFromPath v)).foldl mapSet bucket

/-- `ContextBuilder.collectBacklinksFromResolvedLinks`: scan every source of
the resolved-link index and add those that link to `file`. -/
def collectBacklinksFromResolvedLinks (v : Vault) (file : TFile)
    (bucket : List TFile) : List TFile :=
  (v.resolvedLinks.filterMap (fun e =>
      if file.path ∈ e.2 then fileFromPath v e.1 else none)).foldl mapSet bucket

/-- `ContextBuilder.getBacklinks`: cache-derived and index-derived backlinks
merged into one path-keyed bucket. -/
def getBacklinks (v : Vault) (file : TFile) : List TFile :=
  collectBacklinksFromResolvedLinks v file (collectBacklinksFromCache v file [])

/-- `ContextBuilder.getConnectedFiles`: outgoing links first, then backlinks,
deduplicated by path in a `Map`, with the file itself deleted. -/
def getConnectedFiles (v : Vault) (file : TFile) : List TFile :=
  let connected := (getBacklinks v file).foldl mapSet
    ((getOutgoingLinks v file).foldl mapSet [])
  connected.filter (fun g => g.path ≠ file.path)

/-! ## Membership facts used for termination of the BFS loop -/

/-- Every file produced by `fileFromPath` is a vault file. -/
theorem fileFromPath_mem {v : Vault} {p : String} {f : TFile}
    (h : fileFromPath v p = some f) : f ∈ v.files :=
  List.mem_of_find?_eq_some h

/-- `mapSet` only adds vault members if fed vault members. -/
theorem mapSet_mem_of {v : Vault} {m : List TFile} {f g : TFile}
    (hm : ∀ x ∈ m, x ∈ v.files) (hf : f ∈ v.files) (hg : g ∈ mapSet m f) :
    g ∈ v.files := by
  unfold mapSet at hg
  split at hg
  · obtain ⟨x, hx, hgx⟩ := List.mem_map.mp hg
    by_cases h : x.path = f.path
    · simp [h] at hgx; exact hgx ▸ hf
    · simp [h] at hgx; exact hgx ▸ hm x hx
  · rcases List.mem_append.mp hg with h | h
    · exact hm _ h
    · simp at h; exact h ▸ hf

/-- Folding `mapSet` over vault members keeps the bucket inside the vault. -/
theorem foldl_mapSet_mem_of {v : Vault} {l : List TFile} {init : List TFile}
    (hinit : ∀ x ∈ init, x ∈ v.files) (hl : ∀ x ∈ l, x ∈ v.files) :
    ∀ g ∈ l.foldl mapSet init, g ∈ v.files := by
  induction l generalizing init with
  | nil => exact hinit
  | cons a l ih =>
      exact ih (fun x hx => mapSet_mem_of hinit (hl a (by simp)) hx)
        (fun x hx => hl x (by simp [hx]))

/-- Every file returned by `getConnectedFiles` is a vault file. -/
theorem getConnectedFiles_mem {v : Vault} {file : TFile} :
    ∀ g ∈ getConnectedFiles v file, g ∈ v.files := by
  intro g hg
  unfold getConnectedFiles at hg
  have hg' := List.mem_of_mem_filter hg
  refine foldl_mapSet_mem_of (v := v) ?_ ?_ g hg'
  · refine foldl_mapSet_mem_of (by intro x hx; cases hx) ?_
    intro x hx
    unfold getOutgoingLinks at hx
    obtain ⟨p, _, hp⟩ := List.mem_filterMap.mp hx
    exact fileFromPath_mem hp
  · intro x hx
    unfold getBacklinks at hx
    refine foldl_mapSet_mem_of (v := v) ?_ ?_ x hx
    · intro y hy
      unfold collectBacklinksFromCache at hy
      split at hy
      · cases hy
      · refine foldl_mapSet_mem_of (by intro z hz; cases hz) ?_ y hy
        intro z hz
        obtain ⟨p, _, hp⟩ := List.mem_filterMap.mp hz
        exact fileFromPath_mem hp
    · intro y hy
      obtain ⟨e, _, he⟩ := List.mem_filterMap.mp hy
      split at he
      · exact fileFromPath_mem he
      · cases he

/-! ## The BFS traversal (`ContextBuilder.buildAutoContextChain`)

The TypeScript loop is

```
while (queue.length > 0 && chain.length < maxNotes) \x7b
  const \x7b file, depth \x7d = queue.shift()!;
  if (visited.has(file.path)) continue;
  visited.add(file.path);
  chain.push(file);
  if (depth >= this.maxDepth) continue;
  for (const neighbor of this.getConnectedFiles(file))
    if (!visited.has(neighbor.path)) queue.push(\x7b file: neighbor, depth: depth + 1 \x7d);
\x7d
```

`bfsLoop` is this loop with the state passed explicitly.  The extra
arguments `pool`, `hpool` and `hq` are pure proof scaffolding for
termination (every queued path lies in the finite `pool`, so marking a
dequeued unvisited path shrinks the unvisited part of `pool`); by proof
irrelevance they do not influence the computed chain. -/

theorem filter_not_mem_cons_length_lt {pool visited : List String} {p : String}
    (hp : p ∈ pool) (hnv : p ∉ visited) :
    (pool.filter (fun s => s ∉ p :: visited)).length <
      (pool.filter (fun s => s ∉ visited)).length := by
  have hsub : pool.filter (fun s => s ∉ p :: visited)
      = (pool.filter (fun s => s ∉ visited)).filter (fun s => s ≠ p) := by
    rw [List.filter_filter]
    apply List.filter_congr
    intro x _
    by_cases h1 : x = p <;> by_cases h2 : x ∈ visited <;> simp [h1, h2]
  rw [hsub]
  apply List.length_filter_lt_length_iff_exists.mpr
  exact ⟨p, List.mem_filter.mpr ⟨hp, by simpa using hnv⟩, by simp⟩

/-- The BFS worklist loop of `ContextBuilder.buildAutoContextChain`,
faithful to the `while` loop above.  `maxNotes` is the already clamped
note bound, `visited` the set of accepted paths, `chain` the accumulator. -/
def bfsLoop (v : Vault) (maxNotes : Nat) (maxDepth : Int) (pool : List String)
    (hpool : ∀ f ∈ v.files, f.path ∈ pool)
    (queue : List (TFile × Nat)) (visited : List String) (chain : List TFile)
    (hq : ∀ e ∈ queue, e.1.path ∈ pool) : List TFile :=
  match queue, hq with
  | [], _ => chain
  | (file, depth) :: rest, hq =>
    if chain.length < maxNotes then
      if hvis : file.path ∈ visited then
        bfsLoop v maxNotes maxDepth pool hpool rest visited chain
          (fun e he => hq e (List.mem_cons_of_mem _ he))
      else
        let visited' := file.path :: visited
        let chain' := chain ++ [file]
        if (depth : Int) ≥ maxDepth then
          bfsLoop v maxNotes maxDepth pool hpool rest visited' chain'
            (fun e he => hq e (List.mem_cons_of_mem _ he))
        else
          let pushed := ((getConnectedFiles v file).filter
              (fun n => n.path ∉ visited')).map (fun n => (n, depth + 1))
          bfsLoop v maxNotes maxDepth pool hpool (rest ++ pushed) visited' chain'
            (by
              intro e he
              rcases List.mem_append.mp he with h | h
              · exact hq e (List.mem_cons_of_mem _ h)
              · obtain ⟨n, hn, rfl⟩ := List.mem_map.mp h
                exact hpool n (getConnectedFiles_mem n (List.mem_of_mem_filter hn)))
    else chain
termination_by ((pool.filter (fun s => s ∉ visited)).length, queue.length)
decreasing_by
  · exact Prod.Lex.right _ (Nat.lt_succ_self _)
  · exact Prod.Lex.left _ _
      (filter_not_mem_cons_length_lt (hq (file, depth) (List.mem_cons_self _ _)) hvis)
  · exact Prod.Lex.left _ _
      (filter_not_mem_cons_length_lt (hq (file, depth) (List.mem_cons_self _ _)) hvis)

/-- `ContextBuilder.buildAutoContextChain`: clamp the note bound
(`Math.max(1, this.maxAutoNotes)`), then run the BFS from the seed. -/
def buildAutoContextChain (v : Vault) (cfg : BuilderConfig) (startFile : TFile) :
    List TFile :=
  bfsLoop v (max 1 cfg.maxAutoNotes).toNat cfg.maxDepth
    (startFile.path :: v.files.map (fun f => f.path))
    (fun f hf => List.mem_cons_of_mem _ (List.mem_map_of_mem _ hf))
    [(startFile, 0)] [] []
    (by intro e he; simp at he; simp [he])

/-- Unfolding equation of `bfsLoop` for the empty queue. -/
theorem bfsLoop_nil (v : Vault) (N : Nat) (mD : Int) (pool : List String)
    (hpool : ∀ f ∈ v.files, f.path ∈ pool) (vis : List String) (ch : List TFile)
    (hq : ∀ e ∈ ([] : List (TFile × Nat)), e.1.path ∈ pool) :
    bfsLoop v N mD pool hpool [] vis ch hq = ch := by
  rw [bfsLoop]

/-- Unfolding equation of `bfsLoop` for a nonempty queue; the proofs on the
right-hand side are arbitrary by proof irrelevance. -/
theorem bfsLoop_cons (v : Vault) (N : Nat) (mD : Int) (pool : List String)
    (hpool : ∀ f ∈ v.files, f.path ∈ pool) (file : TFile) (depth : Nat)
    (rest : List (TFile × Nat)) (vis : List String) (ch : List TFile)
    (hq : ∀ e ∈ (file, depth) :: rest, e.1.path ∈ pool)
    (hrest : ∀ e ∈ rest, e.1.path ∈ pool)
    (hpush : ∀ e ∈ rest ++ ((getConnectedFiles v file).filter
        (fun n => n.path ∉ file.path :: vis)).map (fun n => (n, depth + 1)),
        e.1.path ∈ pool) :
    bfsLoop v N mD pool hpool ((file, depth) :: rest) vis ch hq =
      if ch.length < N then
        if file.path ∈ vis then
          bfsLoop v N mD pool hpool rest vis ch hrest
        else
          if (depth : Int) ≥ mD then
            bfsLoop v N mD pool hpool rest (file.path :: vis) (ch ++ [file]) hrest
          else
            bfsLoop v N mD pool hpool
              (rest ++ ((getConnectedFiles v file).filter
                (fun n => n.path ∉ file.path :: vis)).map (fun n => (n, depth + 1)))
              (file.path :: vis) (ch ++ [file]) hpush
      else ch := by
  rw [bfsLoop]
  rfl

/-! ## Declarative BFS discovery order

`specGenB` is the level-by-level reading of the same traversal: the spec's
"BFS discovery order".  `dedupNew seen l` keeps from `l`, in order, the
first occurrence of each path not in `seen` — i.e. the sublist of documents
the dequeue-time visited check accepts.  A layer is accepted in queue order;
its members' neighbor enumerations (outgoing before incoming, self excluded,
exactly `getConnectedFiles`) concatenated in layer order form the raw next
layer.  `budget` counts the remaining hops allowed by `maxDepth`; a final
layer (budget 0) is accepted but not expanded.  `P` is the not yet expanded
tail of the raw next layer (used mid-simulation; it is `[]` at the start of
every full layer). -/

def dedupNew (seen : List String) : List TFile → List TFile
  | [] => []
  | f :: rest =>
      if f.path ∈ seen then dedupNew seen rest
      else f :: dedupNew (f.path :: seen) rest

def specGenB (v : Vault) : Nat → List TFile → List TFile → List String → List TFile
  | 0, F, P, seen =>
      let A := dedupNew seen F
      A ++ dedupNew (seen ++ A.map (fun f => f.path)) P
  | b + 1, F, P, seen =>
      let A := dedupNew seen F
      A ++ specGenB v b (P ++ A.flatMap (getConnectedFiles v)) []
        (seen ++ A.map (fun f => f.path))

/-- The BFS discovery order of the spec: layers of the undirected link view
of the vault starting at `seed`, to depth `maxDepth`. -/
def bfsDiscoveryOrder (v : Vault) (maxDepth : Int) (seed : TFile) : List TFile :=
  specGenB v maxDepth.toNat [seed] [] []

/-! ## Properties of `dedupNew` and `specGenB` -/

theorem dedupNew_subset {seen : List String} {l : List TFile} :
    ∀ f ∈ dedupNew seen l, f ∈ l := by
  induction l generalizing seen with
  | nil => intro f hf; cases hf
  | cons a l ih =>
      intro f hf
      unfold dedupNew at hf
      split at hf
      · exact List.mem_cons_of_mem _ (ih _ hf)
      · rcases List.mem_cons.mp hf with rfl | hf'
        · exact List.mem_cons_self _ _
        · exact List.mem_cons_of_mem _ (ih _ hf')

/-- Every path of the input is already seen or appears in the output. -/
theorem dedupNew_cover {seen : List String} {l : List TFile} {f : TFile}
    (hf : f ∈ l) :
    f.path ∈ seen ∨ f.path ∈ (dedupNew seen l).map (fun g => g.path) := by
  induction l generalizing seen with
  | nil => cases hf
  | cons a l ih =>
      unfold dedupNew
      rcases List.mem_cons.mp hf with rfl | hf'
      · by_cases h : f.path ∈ seen
        · exact Or.inl h
        · right; simp [h]
      · by_cases h : a.path ∈ seen
        · rw [if_pos h]; exact ih hf'
        · rw [if_neg h]
          rcases @ih (a.path :: seen) hf' with h' | h'
          · rcases List.mem_cons.mp h' with h'' | h''
            · right; simp [h'']
            · exact Or.inl h''
          · right; simp [h']

/-- Output paths are pairwise distinct and disjoint from `seen`. -/
theorem dedupNew_nodup {seen : List String} {l : List TFile} :
    ((dedupNew seen l).map (fun g => g.path)).Nodup ∧
      ∀ p ∈ (dedupNew seen l).map (fun g => g.path), p ∉ seen := by
  induction l generalizing seen with
  | nil => exact ⟨List.nodup_nil, by intro p hp; cases hp⟩
  | cons a l ih =>
      unfold dedupNew
      by_cases h : a.path ∈ seen
      · rw [if_pos h]; exact ih
      · rw [if_neg h]
        obtain ⟨hnd, hdisj⟩ := @ih (a.path :: seen)
        refine ⟨List.nodup_cons.mpr ⟨?_, hnd⟩, ?_⟩
        · intro hmem
          exact hdisj _ hmem (List.mem_cons_self _ _)
        · intro p hp
          rcases List.mem_map.mp hp with ⟨g, hg, rfl⟩
          rcases List.mem_cons.mp hg with rfl | hg'
          · exact h
          · intro hps
            exact hdisj _ (List.mem_map_of_mem _ hg') (List.mem_cons_of_mem _ hps)

/-- `dedupNew` only consults membership in `seen`. -/
theorem dedupNew_congr {seen₁ seen₂ : List String} {l : List TFile}
    (h : ∀ s, s ∈ seen₁ ↔ s ∈ seen₂) : dedupNew seen₁ l = dedupNew seen₂ l := by
  induction l generalizing seen₁ seen₂ with
  | nil => rfl
  | cons a l ih =>
      unfold dedupNew
      by_cases ha : a.path ∈ seen₁
      · rw [if_pos ha, if_pos ((h _).mp ha)]; exact ih h
      · rw [if_neg ha, if_neg (fun hc => ha ((h _).mpr hc))]
        exact congrArg _ (ih (by intro s; simp [h s]))

/-- A first member whose path is seen is dropped. -/
theorem dedupNew_cons_mem {seen : List String} {l : List TFile} {f : TFile}
    (h : f.path ∈ seen) : dedupNew seen (f :: l) = dedupNew seen l := by
  simp only [dedupNew, if_pos h]

/-- A first member whose path is new is kept. -/
theorem dedupNew_cons_new {seen : List String} {l : List TFile} {f : TFile}
    (h : f.path ∉ seen) :
    dedupNew seen (f :: l) = f :: dedupNew (f.path :: seen) l := by
  simp only [dedupNew, if_neg h]

/-- Dropping input elements whose paths are already seen does not change the
result, wherever they occur after a common prefix. -/
theorem dedupNew_filter_middle {q : TFile → Bool} {ns R : List TFile} :
    ∀ (Pre : List TFile) (W : List String),
      (∀ x ∈ ns, q x = false → x.path ∈ W) →
      dedupNew W (Pre ++ ns.filter q ++ R) = dedupNew W (Pre ++ ns ++ R) := by
  intro Pre
  induction Pre with
  | nil =>
      intro W hW
      simp only [List.nil_append]
      induction ns generalizing W with
      | nil => rfl
      | cons a ns ih =>
          by_cases hqa : q a
          · rw [List.filter_cons_of_pos hqa]
            simp only [List.cons_append]
            by_cases ha : a.path ∈ W
            · rw [dedupNew_cons_mem ha, dedupNew_cons_mem ha]
              exact ih W (fun x hx hqx => hW x (List.mem_cons_of_mem _ hx) hqx)
            · rw [dedupNew_cons_new ha, dedupNew_cons_new ha]
              exact congrArg _ (ih (W := a.path :: W)
                (fun x hx hqx =>
                  List.mem_cons_of_mem _ (hW x (List.mem_cons_of_mem _ hx) hqx)))
          · have hqa' : q a = false := by simpa using hqa
            have ha : a.path ∈ W := hW a (List.mem_cons_self _ _) hqa'
            rw [List.filter_cons_of_neg (by simp [hqa']), List.cons_append,
              dedupNew_cons_mem ha]
            exact ih W (fun x hx hqx => hW x (List.mem_cons_of_mem _ hx) hqx)
  | cons p Pre ih =>
      intro W hW
      simp only [List.cons_append]
      by_cases hp : p.path ∈ W
      · rw [dedupNew_cons_mem hp, dedupNew_cons_mem hp]
        exact ih W hW
      · rw [dedupNew_cons_new hp, dedupNew_cons_new hp]
        exact congrArg _ (ih (p.path :: W)
          (fun x hx hqx => List.mem_cons_of_mem _ (hW x hx hqx)))

/-- `specGenB` only consults membership in its seen set. -/
theorem specGenB_seen_congr {v : Vault} {b : Nat} :
    ∀ {F P : List TFile} {seen₁ seen₂ : List String},
      (∀ s, s ∈ seen₁ ↔ s ∈ seen₂) →
      specGenB v b F P seen₁ = specGenB v b F P seen₂ := by
  induction b with
  | zero =>
      intro F P seen₁ seen₂ h
      simp only [specGenB]
      rw [dedupNew_congr h]
      refine congrArg _ (dedupNew_congr ?_)
      intro s
      simp [h s]
  | succ b ih =>
      intro F P seen₁ seen₂ h
      simp only [specGenB]
      rw [dedupNew_congr h]
      refine congrArg _ (ih ?_)
      intro s
      simp [h s]

/-- Frontiers with the same accepted layer produce the same output. -/
theorem specGenB_frontier_congr {v : Vault} {b : Nat} {F₁ F₂ P : List TFile}
    {seen : List String} (h : dedupNew seen F₁ = dedupNew seen F₂) :
    specGenB v b F₁ P seen = specGenB v b F₂ P seen := by
  cases b <;> simp only [specGenB] <;> rw [h]

/-- A frontier head whose path is seen contributes nothing. -/
theorem specGenB_cons_mem {v : Vault} {b : Nat} {F P : List TFile}
    {seen : List String} {f : TFile} (h : f.path ∈ seen) :
    specGenB v b (f :: F) P seen = specGenB v b F P seen :=
  specGenB_frontier_congr (dedupNew_cons_mem h)

/-- Exhausting the current layer turns the pending next layer into the new
frontier, spending one unit of budget when available. -/
theorem specGenB_reshape_succ {v : Vault} {b : Nat} {P : List TFile}
    {seen : List String} :
    specGenB v (b + 1) [] P seen = specGenB v b P [] seen := by
  simp [specGenB, dedupNew]

theorem specGenB_reshape_zero {v : Vault} {P : List TFile} {seen : List String} :
    specGenB v 0 [] P seen = specGenB v 0 P [] seen := by
  simp [specGenB, dedupNew]

/-- The output of `specGenB` on an empty state is empty. -/
theorem specGenB_nil {v : Vault} {b : Nat} {seen : List String} :
    specGenB v b [] [] seen = [] := by
  induction b generalizing seen with
  | zero => simp [specGenB, dedupNew]
  | succ b ih => simp [specGenB, dedupNew, ih]

/-! ## Simulation: `bfsLoop` computes the declarative BFS order -/

/-- Helper: any queue drawn from `rest` plus vault neighbors stays in `pool`. -/
theorem push_hq {v : Vault} {pool : List String}
    (hpool : ∀ f ∈ v.files, f.path ∈ pool) {rest : List (TFile × Nat)}
    (hrest : ∀ e ∈ rest, e.1.path ∈ pool) {file : TFile} {vis' : List String}
    {depth : Nat} :
    ∀ e ∈ rest ++ ((getConnectedFiles v file).filter
        (fun n => n.path ∉ vis')).map (fun n => (n, depth + 1)),
      e.1.path ∈ pool := by
  intro e he
  rcases List.mem_append.mp he with h | h
  · exact hrest e h
  · obtain ⟨n, hn, rfl⟩ := List.mem_map.mp h
    exact hpool n (getConnectedFiles_mem n (List.mem_of_mem_filter hn))

/-- A queue consisting of a single layer at depth `d ≥ maxDepth`: every
entry is accepted if unvisited but nothing is expanded. -/
theorem bfsLoop_layer_gated (v : Vault) (N : Nat) (mD : Int) (pool : List String)
    (hpool : ∀ f ∈ v.files, f.path ∈ pool) (d : Nat) (hd : mD ≤ (d : Int)) :
    ∀ (F : List TFile) (V : List String) (C : List TFile)
      (hq : ∀ e ∈ F.map (fun f => (f, d)), e.1.path ∈ pool),
      C.length ≤ N →
      bfsLoop v N mD pool hpool (F.map (fun f => (f, d))) V C hq =
        C ++ (dedupNew V F).take (N - C.length) := by
  intro F
  induction F with
  | nil =>
      intro V C hq hC
      simp [bfsLoop_nil, dedupNew]
  | cons f F ih =>
      intro V C hq hC
      have hrest : ∀ e ∈ F.map (fun g => (g, d)), e.1.path ∈ pool :=
        fun e he => hq e (List.mem_cons_of_mem _ he)
      show bfsLoop v N mD pool hpool ((f, d) :: F.map (fun g => (g, d))) V C hq =
        C ++ (dedupNew V (f :: F)).take (N - C.length)
      rw [bfsLoop_cons v N mD pool hpool f d _ V C hq hrest
        (push_hq hpool hrest)]
      by_cases hlen : C.length < N
      · rw [if_pos hlen]
        by_cases hvis : f.path ∈ V
        · rw [if_pos hvis, ih V C hrest hC, dedupNew_cons_mem hvis]
        · rw [if_neg hvis, if_pos hd, ih (f.path :: V) (C ++ [f]) hrest
            (by simpa using hlen)]
          rw [dedupNew_cons_new hvis]
          have hn : N - C.length = (N - (C ++ [f]).length) + 1 := by
            simp only [List.length_append, List.length_cons, List.length_nil]
            omega
          rw [hn, List.take_succ_cons]
          simp
      · rw [if_neg hlen]
        have : N - C.length = 0 := by omega
        simp [this]

/-- A queue of a layer at depth `d ≥ maxDepth` followed by pending entries at
depth `d+1`: both segments are accepted without expansion, matching
`specGenB` with budget `0`. -/
theorem bfsLoop_gated (v : Vault) (N : Nat) (mD : Int) (pool : List String)
    (hpool : ∀ f ∈ v.files, f.path ∈ pool) (d : Nat) (hd : mD ≤ (d : Int)) :
    ∀ (F P : List TFile) (V : List String) (C : List TFile)
      (hq : ∀ e ∈ F.map (fun f => (f, d)) ++ P.map (fun f => (f, d + 1)),
        e.1.path ∈ pool),
      C.length ≤ N →
      bfsLoop v N mD pool hpool
          (F.map (fun f => (f, d)) ++ P.map (fun f => (f, d + 1))) V C hq =
        C ++ (specGenB v 0 F P V).take (N - C.length) := by
  intro F
  induction F with
  | nil =>
      intro P V C hq hC
      have hd' : mD ≤ ((d + 1 : Nat) : Int) := by push_cast; omega
      show bfsLoop v N mD pool hpool (P.map (fun f => (f, d + 1))) V C hq =
        C ++ (specGenB v 0 [] P V).take (N - C.length)
      rw [bfsLoop_layer_gated v N mD pool hpool (d + 1) hd' P V C hq hC]
      simp [specGenB, dedupNew]
  | cons f F ih =>
      intro P V C hq hC
      have hrest : ∀ e ∈ F.map (fun g => (g, d)) ++ P.map (fun g => (g, d + 1)),
          e.1.path ∈ pool := fun e he => hq e (List.mem_cons_of_mem _ he)
      show bfsLoop v N mD pool hpool
          ((f, d) :: (F.map (fun g => (g, d)) ++ P.map (fun g => (g, d + 1))))
          V C hq = C ++ (specGenB v 0 (f :: F) P V).take (N - C.length)
      rw [bfsLoop_cons v N mD pool hpool f d
        (F.map (fun g => (g, d)) ++ P.map (fun g => (g, d + 1))) V C hq hrest
        (push_hq hpool hrest)]
      by_cases hlen : C.length < N
      · rw [if_pos hlen]
        by_cases hvis : f.path ∈ V
        · rw [if_pos hvis, ih P V C hrest hC,
            specGenB_cons_mem (v := v) (b := 0) (P := P) hvis]
        · rw [if_neg hvis, if_pos hd, ih P (f.path :: V) (C ++ [f]) hrest
            (by simpa using hlen)]
          simp only [specGenB, dedupNew_cons_new hvis]
          have hseen : ∀ s, s ∈ f.path :: V ++
                (dedupNew (f.path :: V) F).map (fun g => g.path) ↔
              s ∈ V ++ (f :: dedupNew (f.path :: V) F).map (fun g => g.path) := by
            intro s
            simp only [List.map_cons, List.mem_cons, List.mem_append]
            tauto
          rw [dedupNew_congr hseen]
          have hn : N - C.length = (N - (C ++ [f]).length) + 1 := by
            simp only [List.length_append, List.length_cons, List.length_nil]
            omega
          rw [hn, List.cons_append, List.take_succ_cons]
          simp
      · rw [if_neg hlen]
        have : N - C.length = 0 := by omega
        simp [this]

/-- `bfsLoop` depends on the queue only through its value. -/
theorem bfsLoop_queue_congr (v : Vault) (N : Nat) (mD : Int) (pool : List String)
    (hpool : ∀ f ∈ v.files, f.path ∈ pool) {q₁ q₂ : List (TFile × Nat)}
    (h : q₁ = q₂) (V : List String) (C : List TFile)
    (hq₁ : ∀ e ∈ q₁, e.1.path ∈ pool) (hq₂ : ∀ e ∈ q₂, e.1.path ∈ pool) :
    bfsLoop v N mD pool hpool q₁ V C hq₁ = bfsLoop v N mD pool hpool q₂ V C hq₂ := by
  subst h; rfl

/-- Unfolding step for the accepted head of a layer below the depth bound:
the head is accepted, its neighbors not yet visited join the pending next
layer. -/
theorem specGenB_cons_new {v : Vault} {b : Nat} {F P : List TFile}
    {V : List String} {f : TFile} (hvis : f.path ∉ V) :
    specGenB v (b + 1) (f :: F) P V =
      f :: specGenB v (b + 1) F
        (P ++ (getConnectedFiles v f).filter (fun n => n.path ∉ f.path :: V)) (f.path :: V) := by
  have hA : dedupNew V (f :: F) = f :: dedupNew (f.path :: V) F :=
    dedupNew_cons_new hvis
  simp only [specGenB, hA]
  rw [List.cons_append]
  refine congrArg _ (congrArg _ ?_)
  rw [List.flatMap_cons, ← List.append_assoc]
  have hseen : ∀ s,
      s ∈ V ++ List.map (fun g => g.path) (f :: dedupNew (f.path :: V) F) ↔
        s ∈ (f.path :: V) ++ List.map (fun g => g.path) (dedupNew (f.path :: V) F) := by
    intro s
    simp only [List.map_cons, List.mem_cons, List.mem_append]
    tauto
  rw [specGenB_seen_congr (v := v) hseen]
  refine (specGenB_frontier_congr ?_).symm
  refine dedupNew_filter_middle P _ ?_
  intro x _ hx
  have hx' : x.path ∈ f.path :: V := by
    have h1 : ¬x.path = f.path → x.path ∈ V := by simpa using hx
    by_cases h2 : x.path = f.path
    · simp [h2]
    · simp [h1 h2]
  exact List.mem_append.mpr (Or.inl hx')

/-- Main simulation: from a queue holding the rest of the layer at depth `d`
followed by pending depth-`d+1` entries, the loop appends exactly the
declarative BFS order truncated to the remaining note budget. -/
theorem bfsLoop_spec (v : Vault) (N : Nat) (mD : Int) (pool : List String)
    (hpool : ∀ f ∈ v.files, f.path ∈ pool) :
    ∀ (b : Nat) (d : Nat), (mD - (d : Int)).toNat = b →
    ∀ (F P : List TFile) (V : List String) (C : List TFile)
      (hq : ∀ e ∈ F.map (fun f => (f, d)) ++ P.map (fun f => (f, d + 1)),
        e.1.path ∈ pool),
      C.length ≤ N →
      bfsLoop v N mD pool hpool
          (F.map (fun f => (f, d)) ++ P.map (fun f => (f, d + 1))) V C hq =
        C ++ (specGenB v b F P V).take (N - C.length) := by
  intro b
  induction b with
  | zero =>
      intro d hb F P V C hq hC
      exact bfsLoop_gated v N mD pool hpool d (by omega) F P V C hq hC
  | succ b ihb =>
      intro d hb F P V C hq hC
      induction F generalizing P V C with
      | nil =>
          have hb' : (mD - ((d + 1 : Nat) : Int)).toNat = b := by push_cast; omega
          have hq' : ∀ e ∈ P.map (fun f => (f, d + 1)) ++
              ([] : List TFile).map (fun f => (f, d + 1 + 1)), e.1.path ∈ pool := by
            intro e he
            apply hq
            simpa using (by simpa using he : e ∈ P.map (fun f => (f, d + 1)))
          have hqeq : ([] : List TFile).map (fun f => (f, d)) ++
                P.map (fun f => (f, d + 1))
              = P.map (fun f => (f, d + 1)) ++
                ([] : List TFile).map (fun f => (f, d + 1 + 1)) := by simp
          rw [bfsLoop_queue_congr v N mD pool hpool hqeq V C hq hq',
            ihb (d + 1) hb' P [] V C hq' hC, specGenB_reshape_succ]
      | cons f F ihF =>
          have hrest : ∀ e ∈ F.map (fun g => (g, d)) ++ P.map (fun g => (g, d + 1)),
              e.1.path ∈ pool := fun e he => hq e (List.mem_cons_of_mem _ he)
          show bfsLoop v N mD pool hpool
              ((f, d) :: (F.map (fun g => (g, d)) ++ P.map (fun g => (g, d + 1))))
              V C hq = C ++ (specGenB v (b + 1) (f :: F) P V).take (N - C.length)
          rw [bfsLoop_cons v N mD pool hpool f d
            (F.map (fun g => (g, d)) ++ P.map (fun g => (g, d + 1))) V C hq hrest
            (push_hq hpool hrest)]
          by_cases hlen : C.length < N
          · rw [if_pos hlen]
            by_cases hvis : f.path ∈ V
            · rw [if_pos hvis, ihF P V C hrest hC, specGenB_cons_mem hvis]
            · rw [if_neg hvis, if_neg (by omega : ¬((d : Int) ≥ mD))]
              have hq₂ : ∀ e ∈ F.map (fun g => (g, d)) ++
                  (P ++ (getConnectedFiles v f).filter
                    (fun n => n.path ∉ f.path :: V)).map (fun g => (g, d + 1)),
                  e.1.path ∈ pool := by
                intro e he
                rcases List.mem_append.mp he with h | h
                · exact hrest e (List.mem_append.mpr (Or.inl h))
                · obtain ⟨n, hn, rfl⟩ := List.mem_map.mp h
                  rcases List.mem_append.mp hn with h' | h'
                  · exact hrest (n, d + 1)
                      (List.mem_append.mpr (Or.inr (List.mem_map_of_mem _ h')))
                  · exact hpool n (getConnectedFiles_mem n (List.mem_of_mem_filter h'))
              have hqeq : (F.map (fun g => (g, d)) ++ P.map (fun g => (g, d + 1))) ++
                    ((getConnectedFiles v f).filter
                      (fun n => n.path ∉ f.path :: V)).map (fun n => (n, d + 1))
                  = F.map (fun g => (g, d)) ++
                    (P ++ (getConnectedFiles v f).filter
                      (fun n => n.path ∉ f.path :: V)).map (fun g => (g, d + 1)) := by
                simp [List.map_append]
              rw [bfsLoop_queue_congr v N mD pool hpool hqeq (f.path :: V)
                  (C ++ [f]) _ hq₂,
                ihF (P ++ (getConnectedFiles v f).filter
                  (fun n => n.path ∉ f.path :: V)) (f.path :: V) (C ++ [f]) hq₂
                  (by simpa using hlen),
                specGenB_cons_new hvis]
              have hn : N - C.length = (N - (C ++ [f]).length) + 1 := by
                simp only [List.length_append, List.length_cons, List.length_nil]
                omega
              rw [hn, List.take_succ_cons]
              simp
          · rw [if_neg hlen]
            have h0 : N - C.length = 0 := by omega
            simp [h0]

/-- Master corollary: `buildAutoContextChain` is the declarative BFS
discovery order truncated to the clamped note bound. -/
theorem buildAutoContextChain_take (v : Vault) (cfg : BuilderConfig)
    (seed : TFile) :
    buildAutoContextChain v cfg seed =
      (bfsDiscoveryOrder v cfg.maxDepth seed).take (max 1 cfg.maxAutoNotes).toNat := by
  have h := bfsLoop_spec v (max 1 cfg.maxAutoNotes).toNat cfg.maxDepth
      (seed.path :: v.files.map (fun f => f.path))
      (fun f hf => List.mem_cons_of_mem _ (List.mem_map_of_mem _ hf))
      cfg.maxDepth.toNat 0 (by simp) [seed] [] [] []
      (by intro e he; simp at he; simp [he]) (by simp)
  simpa [buildAutoContextChain, bfsDiscoveryOrder] using h

/-- The declarative BFS order never repeats a path, and avoids `seen`. -/
theorem specGenB_nodup {v : Vault} :
    ∀ (b : Nat) (F P : List TFile) (V : List String),
      (((specGenB v b F P V).map (fun f => f.path)).Nodup ∧
        ∀ p ∈ (specGenB v b F P V).map (fun f => f.path), p ∉ V) := by
  intro b
  induction b with
  | zero =>
      intro F P V
      simp only [specGenB, List.map_append, List.nodup_append]
      obtain ⟨h1, h2⟩ := @dedupNew_nodup V F
      obtain ⟨h3, h4⟩ :=
        @dedupNew_nodup (V ++ (dedupNew V F).map (fun f => f.path)) P
      refine ⟨⟨h1, h3, ?_⟩, ?_⟩
      · intro p hp hp'
        exact h4 p hp' (List.mem_append.mpr (Or.inr hp))
      · intro p hp
        rcases List.mem_append.mp hp with h | h
        · exact h2 p h
        · exact fun hv => h4 p h (List.mem_append.mpr (Or.inl hv))
  | succ b ih =>
      intro F P V
      simp only [specGenB, List.map_append, List.nodup_append]
      obtain ⟨h1, h2⟩ := @dedupNew_nodup V F
      obtain ⟨h3, h4⟩ := ih (P ++ (dedupNew V F).flatMap (getConnectedFiles v)) []
        (V ++ (dedupNew V F).map (fun f => f.path))
      refine ⟨⟨h1, h3, ?_⟩, ?_⟩
      · intro p hp hp'
        exact h4 p hp' (List.mem_append.mpr (Or.inr hp))
      · intro p hp
        rcases List.mem_append.mp hp with h | h
        · exact h2 p h
        · exact fun hv => h4 p h (List.mem_append.mpr (Or.inl hv))

/-! ## Graph-distance characterisation of the BFS order -/

/-- The neighbor enumeration reads only the path of its argument. -/
def connectedOfPath (v : Vault) (p : String) : List TFile :=
  getConnectedFiles v { path := p, basename := p }

theorem getConnectedFiles_eq_path (v : Vault) (f : TFile) :
    getConnectedFiles v f = connectedOfPath v f.path := by
  unfold connectedOfPath getConnectedFiles getBacklinks collectBacklinksFromCache
    collectBacklinksFromResolvedLinks getOutgoingLinks
  rfl

/-- Documents within `d` undirected hops of the seed, stepping through the
source's own neighbor enumeration `getConnectedFiles`. -/
inductive WithinDepth (v : Vault) (seed : TFile) : TFile → Nat → Prop
  | refl : WithinDepth v seed seed 0
  | step {f g : TFile} {d : Nat} : WithinDepth v seed f d →
      g ∈ getConnectedFiles v f → WithinDepth v seed g (d + 1)

/-- Path-level reachability in `k` hops from a set of base paths. -/
inductive PReach (v : Vault) (S : List String) : String → Nat → Prop
  | base {p : String} : p ∈ S → PReach v S p 0
  | step {p : String} {g : TFile} {k : Nat} : PReach v S p k →
      g ∈ connectedOfPath v p → PReach v S g.path (k + 1)

theorem PReach.mono {v : Vault} {S T : List String} (hST : ∀ s ∈ S, s ∈ T) :
    ∀ {q k}, PReach v S q k → PReach v T q k := by
  intro q k h
  induction h with
  | base hp => exact .base (hST _ hp)
  | step _ hg ih => exact .step ih hg

theorem withinDepth_preach {v : Vault} {seed : TFile} {f : TFile} {d : Nat}
    (h : WithinDepth v seed f d) : PReach v [seed.path] f.path d := by
  induction h with
  | refl => exact .base (List.mem_singleton.mpr rfl)
  | step _ hg ih => exact .step ih (by rwa [getConnectedFiles_eq_path] at hg)

theorem preach_withinDepth {v : Vault} {seed : TFile} {q : String} {d : Nat}
    (h : PReach v [seed.path] q d) : ∃ f, f.path = q ∧ WithinDepth v seed f d := by
  induction h with
  | base hp => exact ⟨seed, (List.mem_singleton.mp hp).symm, .refl⟩
  | step _ hg ih =>
      obtain ⟨f, hf, hw⟩ := ih
      exact ⟨_, rfl, hw.step (by rw [getConnectedFiles_eq_path, hf]; exact hg)⟩

/-- One-step compression: when every neighbor of a base path stays in the
base or in `T`, a `(k+1)`-hop reach becomes a `k`-hop reach from `S ++ T`. -/
theorem preach_compress {v : Vault} {S T : List String}
    (hcl : ∀ p ∈ S, ∀ g ∈ connectedOfPath v p, g.path ∈ S ∨ g.path ∈ T) :
    ∀ (k : Nat) {q}, PReach v S q (k + 1) → PReach v (S ++ T) q k := by
  intro k
  induction k with
  | zero =>
      intro q h
      cases h with
      | step hp hg =>
          cases hp with
          | base hmem =>
              exact .base (List.mem_append.mpr (hcl _ hmem _ hg))
  | succ k ih =>
      intro q h
      cases h with
      | step hp hg => exact .step (ih hp) hg

/-- Soundness: everything the BFS order lists lies within the hop budget. -/
theorem specGenB_sound {v : Vault} {seed : TFile} :
    ∀ (b : Nat) (F : List TFile) (V : List String) (d₀ : Nat),
      (∀ f ∈ F, ∃ d ≤ d₀, WithinDepth v seed f d) →
      ∀ g ∈ specGenB v b F [] V, ∃ d ≤ d₀ + b, WithinDepth v seed g d := by
  intro b
  induction b with
  | zero =>
      intro F V d₀ hF g hg
      simp only [specGenB, dedupNew, List.append_nil] at hg
      obtain ⟨d, hd, hw⟩ := hF g (dedupNew_subset g hg)
      exact ⟨d, by omega, hw⟩
  | succ b ih =>
      intro F V d₀ hF g hg
      simp only [specGenB] at hg
      rcases List.mem_append.mp hg with h | h
      · obtain ⟨d, hd, hw⟩ := hF g (dedupNew_subset g h)
        exact ⟨d, by omega, hw⟩
      · have hF' : ∀ f ∈ ([] : List TFile) ++
            (dedupNew V F).flatMap (getConnectedFiles v),
            ∃ d ≤ d₀ + 1, WithinDepth v seed f d := by
          intro f hf
          simp only [List.nil_append] at hf
          obtain ⟨a, ha, hfa⟩ := List.mem_flatMap.mp hf
          obtain ⟨d, hd, hw⟩ := hF a (dedupNew_subset a ha)
          exact ⟨d + 1, by omega, hw.step hfa⟩
        obtain ⟨d, hd, hw⟩ := ih _ _ (d₀ + 1) hF' g h
        exact ⟨d, by omega, hw⟩

/-- Completeness: every path reachable within the hop budget from the seen
set or the frontier is listed (or already seen). -/
theorem specGenB_complete {v : Vault} :
    ∀ (b : Nat) (F : List TFile) (V : List String),
      (∀ p ∈ V, ∀ g ∈ connectedOfPath v p,
        g.path ∈ V ∨ g.path ∈ F.map (fun f => f.path)) →
      ∀ {q k}, k ≤ b → PReach v (V ++ F.map (fun f => f.path)) q k →
      q ∈ V ++ (specGenB v b F [] V).map (fun f => f.path) := by
  intro b
  induction b with
  | zero =>
      intro F V _ q k hk hr
      interval_cases k
      cases hr with
      | base hmem =>
          rcases List.mem_append.mp hmem with h | h
          · exact List.mem_append.mpr (Or.inl h)
          · obtain ⟨f, hf, rfl⟩ := List.mem_map.mp h
            rcases @dedupNew_cover V _ _ hf with h' | h'
            · exact List.mem_append.mpr (Or.inl h')
            · refine List.mem_append.mpr (Or.inr ?_)
              simp only [specGenB, dedupNew, List.append_nil]
              exact h'
  | succ b ih =>
      intro F V hInv q k hk hr
      have hcoverF : ∀ p ∈ F.map (fun f => f.path),
          p ∈ V ∨ p ∈ (dedupNew V F).map (fun f => f.path) := by
        intro p hp
        obtain ⟨f, hf, rfl⟩ := List.mem_map.mp hp
        exact dedupNew_cover hf
      have hgoal : V ++ (specGenB v (b + 1) F [] V).map (fun f => f.path) =
          V ++ ((dedupNew V F).map (fun f => f.path) ++
            (specGenB v b ([] ++ (dedupNew V F).flatMap (getConnectedFiles v)) []
              (V ++ (dedupNew V F).map (fun f => f.path))).map (fun f => f.path)) := by
        simp [specGenB]
      cases k with
      | zero =>
          cases hr with
          | base hmem =>
              rw [hgoal]
              rcases List.mem_append.mp hmem with h | h
              · exact List.mem_append.mpr (Or.inl h)
              · rcases hcoverF _ h with h' | h'
                · exact List.mem_append.mpr (Or.inl h')
                · exact List.mem_append.mpr
                    (Or.inr (List.mem_append.mpr (Or.inl h')))
      | succ k =>
          have hcl : ∀ p ∈ V ++ F.map (fun f => f.path),
              ∀ g ∈ connectedOfPath v p,
                g.path ∈ V ++ F.map (fun f => f.path) ∨ g.path ∈
                  (([] : List TFile) ++
                    (dedupNew V F).flatMap (getConnectedFiles v)).map
                      (fun f => f.path) := by
            intro p hp g hg
            rcases List.mem_append.mp hp with h | h
            · rcases hInv p h g hg with h' | h'
              · exact Or.inl (List.mem_append.mpr (Or.inl h'))
              · exact Or.inl (List.mem_append.mpr (Or.inr h'))
            · rcases hcoverF _ h with h' | h'
              · rcases hInv p h' g hg with h'' | h''
                · exact Or.inl (List.mem_append.mpr (Or.inl h''))
                · exact Or.inl (List.mem_append.mpr (Or.inr h''))
              · right
                obtain ⟨a, ha, rfl⟩ := List.mem_map.mp h'
                refine List.mem_map_of_mem _ ?_
                simp only [List.nil_append]
                refine List.mem_flatMap.mpr ⟨a, ha, ?_⟩
                rw [getConnectedFiles_eq_path]
                exact hg
          have hr' := preach_compress hcl k hr
          have hmono : ∀ s ∈ (V ++ F.map (fun f => f.path)) ++
                (([] : List TFile) ++
                  (dedupNew V F).flatMap (getConnectedFiles v)).map (fun f => f.path),
              s ∈ (V ++ (dedupNew V F).map (fun f => f.path)) ++
                (([] : List TFile) ++
                  (dedupNew V F).flatMap (getConnectedFiles v)).map (fun f => f.path) := by
            intro s hs
            rcases List.mem_append.mp hs with h | h
            · rcases List.mem_append.mp h with h' | h'
              · exact List.mem_append.mpr
                  (Or.inl (List.mem_append.mpr (Or.inl h')))
              · rcases hcoverF _ h' with h'' | h''
                · exact List.mem_append.mpr
                    (Or.inl (List.mem_append.mpr (Or.inl h'')))
                · exact List.mem_append.mpr
                    (Or.inl (List.mem_append.mpr (Or.inr h'')))
            · exact List.mem_append.mpr (Or.inr h)
          have hInv' : ∀ p ∈ V ++ (dedupNew V F).map (fun f => f.path),
              ∀ g ∈ connectedOfPath v p,
                g.path ∈ V ++ (dedupNew V F).map (fun f => f.path) ∨
                  g.path ∈ (([] : List TFile) ++
                    (dedupNew V F).flatMap (getConnectedFiles v)).map
                      (fun f => f.path) := by
            intro p hp g hg
            rcases List.mem_append.mp hp with h | h
            · rcases hInv p h g hg with h' | h'
              · exact Or.inl (List.mem_append.mpr (Or.inl h'))
              · rcases hcoverF _ h' with h'' | h''
                · exact Or.inl (List.mem_append.mpr (Or.inl h''))
                · exact Or.inl (List.mem_append.mpr (Or.inr h''))
            · right
              obtain ⟨a, ha, rfl⟩ := List.mem_map.mp h
              refine List.mem_map_of_mem _ ?_
              simp only [List.nil_append]
              refine List.mem_flatMap.mpr ⟨a, ha, ?_⟩
              rw [getConnectedFiles_eq_path]
              exact hg
          have hres := ih _ _ hInv' (Nat.le_of_succ_le_succ hk)
            (hr'.mono hmono)
          rw [hgoal]
          rcases List.mem_append.mp hres with h | h
          · rcases List.mem_append.mp h with h' | h'
            · exact List.mem_append.mpr (Or.inl h')
            · exact List.mem_append.mpr
                (Or.inr (List.mem_append.mpr (Or.inl h')))
          · exact List.mem_append.mpr
              (Or.inr (List.mem_append.mpr (Or.inr h)))

/-! ## The formatter (`formatNotes`, `formatSingleNote`)

`formatSingleNote` reads the current content, strips wiki links with the
global regex `/\[\[.*?\]\]/g` and wraps the result in a header/footer block.
The regex semantics embedded by `stripAux`: scanning left to right, at each
`[[` the lazy `.*?` takes the closest following `]]`; `.` does not match a
line terminator, so a span never crosses one; on failure the scan resumes
one character later.  `findClose` finds the closest `]]` before a line
terminator. -/

def findClose : List Char → Option (List Char)
  | ']' :: ']' :: rest => some rest
  | '\n' :: _ => none
  | '\r' :: _ => none
  | '\u2028' :: _ => none
  | '\u2029' :: _ => none
  | _ :: rest => findClose rest
  | [] => none

theorem findClose_length {l r : List Char} (h : findClose l = some r) :
    r.length < l.length := by
  induction l using findClose.induct with
  | case1 rest =>
      rw [findClose] at h
      cases h
      simp only [List.length_cons]
      omega
  | case2 => simp [findClose] at h
  | case3 => simp [findClose] at h
  | case4 => simp [findClose] at h
  | case5 => simp [findClose] at h
  | case6 c rest h1 h2 h3 h4 h5 ih =>
      rw [findClose] at h
      · have := ih h
        simp
        omega
      · exact h1
      · exact h2
      · exact h3
      · exact h4
      · exact h5
  | case7 => simp [findClose] at h

def stripAux : List Char → List Char
  | '[' :: '[' :: rest₂ =>
      match hfc : findClose rest₂ with
      | some rest' => stripAux rest'
      | none => '[' :: stripAux ('[' :: rest₂)
  | c :: rest => c :: stripAux rest
  | [] => []
termination_by l => l.length
decreasing_by
  · have := findClose_length hfc
    simp
    omega
  · simp
  · simp

/-- `content.replace(/\[\[.*?\]\]/g, "")`. -/
def stripLinks (s : String) : String := ⟨stripAux s.data⟩

/-- Does a well-formed link span start at the head of the list? -/
def startsMatch : List Char → Bool
  | '[' :: '[' :: rest₂ => (findClose rest₂).isSome
  | _ => false

/-- Does the text contain any well-formed `[[...]]` span? -/
def hasLink : List Char → Bool
  | [] => false
  | c :: rest => startsMatch (c :: rest) || hasLink rest

theorem stripAux_of_not_hasLink {l : List Char} (h : hasLink l = false) :
    stripAux l = l := by
  induction l using stripAux.induct with
  | case1 rest₂ rest' hfc =>
      exfalso
      rw [hasLink] at h
      simp [startsMatch, hfc] at h
  | case2 rest₂ hfc ih =>
      rw [hasLink] at h
      simp only [Bool.or_eq_false_iff] at h
      rw [stripAux]
      rw [ih h.2]
      split
      · simp_all
      · rfl
  | case3 c rest h1 ih =>
      have h2 : hasLink rest = false := by
        rw [hasLink] at h
        exact (Bool.or_eq_false_iff.mp h).2
      rw [stripAux]
      · rw [ih h2]
      · exact h1
  | case4 => rw [stripAux]

theorem stripAux_append_no_bracket {pre : List Char} (h : '[' ∉ pre) :
    ∀ l, stripAux (pre ++ l) = pre ++ stripAux l := by
  induction pre with
  | nil => intro l; rfl
  | cons c pre ih =>
      intro l
      have hc : c ≠ '[' := fun hc => h (hc ▸ List.mem_cons_self _ _)
      have h' : '[' ∉ pre := fun hm => h (List.mem_cons_of_mem _ hm)
      rw [List.cons_append, stripAux]
      · rw [ih h' l, List.cons_append]
      · intro rest₂ hceq
        exact absurd hceq hc

theorem findClose_through {inner : List Char}
    (h : ∀ c ∈ inner, c ≠ ']' ∧ c ≠ '\n' ∧ c ≠ '\r' ∧ c ≠ '\u2028' ∧ c ≠ '\u2029')
    (post : List Char) :
    findClose (inner ++ ']' :: ']' :: post) = some post := by
  induction inner with
  | nil => rfl
  | cons c inner ih =>
      obtain ⟨h1, h2, h3, h4, h5⟩ := h c (List.mem_cons_self _ _)
      rw [List.cons_append, findClose]
      · exact ih (fun x hx => h x (List.mem_cons_of_mem _ hx))
      · intro rest hc
        exact absurd hc h1
      · intro hc
        exact absurd hc h2
      · intro hc
        exact absurd hc h3
      · intro hc
        exact absurd hc h4
      · intro hc
        exact absurd hc h5

/-- A well-formed span after a bracket-free prefix is removed whole
(alias pipe and all), never replaced by part of its text. -/
theorem stripAux_span {pre inner post : List Char} (hpre : '[' ∉ pre)
    (hin : ∀ c ∈ inner,
      c ≠ ']' ∧ c ≠ '\n' ∧ c ≠ '\r' ∧ c ≠ '\u2028' ∧ c ≠ '\u2029') :
    stripAux (pre ++ '[' :: '[' :: (inner ++ ']' :: ']' :: post)) =
      pre ++ stripAux post := by
  rw [stripAux_append_no_bracket hpre]
  refine congrArg _ ?_
  rw [stripAux]
  split
  · rename_i rest' hfc
    rw [findClose_through hin post] at hfc
    cases hfc
    rfl
  · rename_i hfc
    rw [findClose_through hin post] at hfc
    cases hfc

/-- `this.app.vault.read(file)`.  Modelled from the spec: the document store
is external to this repository; per the spec a read either yields the
document's current text or fails NotFound, and the error carries a message
identifying the failing document path. -/
def vaultRead (v : Vault) (file : TFile) : Except String String :=
  match v.contents.find? (fun e => e.1 = file.path) with
  | some e => Except.ok e.2
  | none => Except.error ("File not found: " ++ file.path)

/-- `ContextBuilder.formatSingleNote`. -/
def formatSingleNote (v : Vault) (file : TFile) : Except String String := do
  let content ← vaultRead v file
  let contentWithoutLinks := stripLinks content
  pure ("--- [Note: " ++ file.basename ++ "] ---\n" ++ contentWithoutLinks ++ "\n\n")

/-- `ContextBuilder.formatNotes`: format each note in order (an `await` in a
loop: the first failing read rejects the whole build), then join the
sections with the empty separator. -/
def formatNotes (v : Vault) (notes : List TFile) : Except String String := do
  let sections ← notes.mapM (formatSingleNote v)
  pure (String.join sections)

/-- `ContextBuilder.buildContextFromNotes`. -/
def buildContextFromNotes (v : Vault) (notes : List TFile) : Except String String :=
  formatNotes v notes

/-- `ContextBuilder.buildAutoContext`. -/
def buildAutoContext (v : Vault) (cfg : BuilderConfig) (startFile : TFile) :
    Except String String :=
  formatNotes v (buildAutoContextChain v cfg startFile)

/-- With every read succeeding, formatting maps each note to its block. -/
theorem mapM_formatSingleNote_ok {v : Vault} (c : TFile → String) :
    ∀ {notes : List TFile}, (∀ f ∈ notes, vaultRead v f = Except.ok (c f)) →
    notes.mapM (formatSingleNote v) = Except.ok (notes.map (fun f =>
      "--- [Note: " ++ f.basename ++ "] ---\n" ++ stripLinks (c f) ++ "\n\n")) := by
  intro notes
  induction notes with
  | nil => intro _; rfl
  | cons a l ih =>
      intro h
      have ha := h a (List.mem_cons_self _ _)
      have hl := ih (fun f hf => h f (List.mem_cons_of_mem _ hf))
      rw [List.mapM_cons, formatSingleNote]
      simp only [ha, hl, bind, Except.bind, pure, Except.pure, List.map_cons]

/-- Successful formatting: with every read succeeding, the output is the
concatenation, in order, of one header/stripped-content/footer block per
note. -/
theorem formatNotes_ok {v : Vault} (c : TFile → String) {notes : List TFile}
    (h : ∀ f ∈ notes, vaultRead v f = Except.ok (c f)) :
    formatNotes v notes = Except.ok (String.join (notes.map (fun f =>
      "--- [Note: " ++ f.basename ++ "] ---\n" ++ stripLinks (c f) ++ "\n\n"))) := by
  rw [formatNotes]
  simp only [mapM_formatSingleNote_ok c h, bind, Except.bind, pure, Except.pure]

/-- A failing read anywhere in the chain fails the whole build with the
message naming a failing path. -/
theorem formatNotes_error {v : Vault} :
    ∀ {notes : List TFile} {f : TFile}, f ∈ notes →
      vaultRead v f = Except.error ("File not found: " ++ f.path) →
      ∃ g, g ∈ notes ∧
        vaultRead v g = Except.error ("File not found: " ++ g.path) ∧
        formatNotes v notes = Except.error ("File not found: " ++ g.path) := by
  intro notes
  induction notes with
  | nil => intro f hf; cases hf
  | cons a l ih =>
      intro f hf herr
      cases ha : vaultRead v a with
      | error e =>
          have hmsg : e = "File not found: " ++ a.path := by
            unfold vaultRead at ha
            split at ha
            · cases ha
            · cases ha; rfl
          refine ⟨a, List.mem_cons_self _ _, hmsg ▸ ha, ?_⟩
          rw [formatNotes, List.mapM_cons, formatSingleNote]
          simp only [ha, hmsg, bind, Except.bind]
      | ok content =>
          have hf' : f ∈ l := by
            rcases List.mem_cons.mp hf with rfl | hf'
            · rw [ha] at herr; cases herr
            · exact hf'
          obtain ⟨g, hg, hgerr, hfmt⟩ := ih hf' herr
          refine ⟨g, List.mem_cons_of_mem _ hg, hgerr, ?_⟩
          rw [formatNotes] at hfmt
          rw [formatNotes, List.mapM_cons, formatSingleNote]
          simp only [ha, bind, Except.bind, pure, Except.pure] at hfmt ⊢
          split at hfmt
          · exact hfmt
          · cases hfmt

/-! ## `BranchStore` (`branchStore.ts`)

The store's entries are user-ordered `BranchEntry` records each holding one
file; the embedding keeps the list of files.  `getBranch` returns a copy,
which in a pure model is the list itself.  The `branch-updated` events only
notify UI surfaces and carry no data, so they are not modelled. -/

/-- `BranchStore.has`. -/
def branchHas (entries : List TFile) (file : TFile) : Bool :=
  entries.any (fun entry => entry.path = file.path)

/-- JavaScript `Array.prototype.splice` start-index normalisation. -/
def spliceStart (len : Nat) (i : Int) : Nat :=
  if i < 0 then (len + i).toNat else min i.toNat len

/-- `BranchStore.add`: silently rejected when a path-equal entry exists,
otherwise spliced in at `index` (end of list when omitted). -/
def branchAdd (entries : List TFile) (file : TFile) (index : Option Int) :
    List TFile :=
  if branchHas entries file then entries
  else
    let insertionIndex : Int :=
      match index with
      | none => entries.length
      | some i => i
    let j := spliceStart entries.length insertionIndex
    entries.take j ++ [file] ++ entries.drop j

/-- `BranchStore.remove`. -/
def branchRemove (entries : List TFile) (path : String) : List TFile :=
  entries.filter (fun entry => entry.path ≠ path)

/-- `BranchStore.clear`. -/
def branchClear (_entries : List TFile) : List TFile := []

/-- `BranchStore.move`: bounds-checked remove-then-reinsert. -/
def branchMove (entries : List TFile) (oldIndex newIndex : Int) : List TFile :=
  if oldIndex = newIndex then entries
  else if oldIndex < 0 ∨ (entries.length : Int) ≤ oldIndex then entries
  else if newIndex < 0 ∨ (entries.length : Int) ≤ newIndex then entries
  else
    match entries.get? oldIndex.toNat with
    | none => entries
    | some entry =>
        let without := entries.eraseIdx oldIndex.toNat
        without.take newIndex.toNat ++ [entry] ++ without.drop newIndex.toNat

/-- The branch-list invariant: no two entries share a path. -/
def pathsNodup (entries : List TFile) : Prop :=
  (entries.map (fun f => f.path)).Nodup

/-! ## Strategy selection (`main.ts`)

`SynapsePlugin.processThought` chooses its context source afresh on every
call from the call's own inputs; nothing about the choice is stored:

```
if (selectedNotes && selectedNotes.length > 0)
  context = await this.buildBranchedContext(selectedNotes);
else if (this.branchStore.getBranch().length > 0)
  context = await this.buildBranchedContext(
    this.branchStore.getBranch().map(entry => entry.file));
else
  context = await this.contextBuilder.buildContext(activeFile);
```

`SynapsePlugin.generateResponse` is the same decision without the
per-call explicit list.  `ContextSource` names the three outcomes; the
manual outcomes carry the exact list handed to
`ContextBuilder.buildContextFromNotes`. -/

inductive ContextSource
  | manualExplicit (notes : List TFile)
  | manualBranch (notes : List TFile)
  | autoTraversal (seed : TFile)
deriving DecidableEq, Repr

/-- The decision made by `SynapsePlugin.processThought`. -/
def processThoughtStrategy (selectedNotes : Option (List TFile))
    (branchEntries : List TFile) (activeFile : TFile) : ContextSource :=
  match selectedNotes with
  | some notes =>
      if notes.length > 0 then ContextSource.manualExplicit notes
      else if branchEntries.length > 0 then ContextSource.manualBranch branchEntries
      else ContextSource.autoTraversal activeFile
  | none =>
      if branchEntries.length > 0 then ContextSource.manualBranch branchEntries
      else ContextSource.autoTraversal activeFile

/-- The decision made by `SynapsePlugin.generateResponse`. -/
def generateResponseStrategy (branchEntries : List TFile) (activeFile : TFile) :
    ContextSource :=
  if branchEntries.length > 0 then ContextSource.manualBranch branchEntries
  else ContextSource.autoTraversal activeFile

/-! ## Support lemmas for the claims -/

/-- The discovery order always starts with the seed. -/
theorem bfsDiscoveryOrder_cons (v : Vault) (mD : Int) (seed : TFile) :
    ∃ t, bfsDiscoveryOrder v mD seed = seed :: t := by
  unfold bfsDiscoveryOrder
  cases mD.toNat with
  | zero => exact ⟨[], by simp [specGenB, dedupNew]⟩
  | succ b =>
      exact ⟨specGenB v b (getConnectedFiles v seed) [] [seed.path],
        by simp [specGenB, dedupNew]⟩

/-- A read that cannot succeed is the canonical NotFound error. -/
theorem vaultRead_error {v : Vault} {f : TFile}
    (h : ∀ c, vaultRead v f ≠ Except.ok c) :
    vaultRead v f = Except.error ("File not found: " ++ f.path) := by
  unfold vaultRead at *
  split at h
  · exact absurd rfl (h _)
  · rfl

/-- Splicing an element anywhere is a permutation of consing it. -/
theorem splice_perm (l : List TFile) (x : TFile) (j : Nat) :
    (l.take j ++ [x] ++ l.drop j).Perm (x :: l) := by
  have h1 : l.take j ++ [x] ++ l.drop j = l.take j ++ x :: l.drop j := by simp
  rw [h1]
  have h2 : (l.take j ++ x :: l.drop j).Perm (x :: (l.take j ++ l.drop j)) :=
    List.perm_middle
  rwa [List.take_append_drop] at h2

theorem pathsNodup_of_perm {l₁ l₂ : List TFile} (h : l₁.Perm l₂)
    (h₂ : pathsNodup l₂) : pathsNodup l₁ := by
  unfold pathsNodup at *
  exact ((h.map (fun f => f.path)).nodup_iff).mpr h₂

/-- `branchAdd` keeps the uniqueness invariant. -/
theorem branchAdd_pathsNodup {entries : List TFile} {file : TFile}
    {index : Option Int} (h : pathsNodup entries) :
    pathsNodup (branchAdd entries file index) := by
  unfold branchAdd
  split
  · exact h
  · rename_i hhas
    refine pathsNodup_of_perm (splice_perm entries file _) ?_
    unfold pathsNodup at *
    refine List.nodup_cons.mpr ⟨?_, h⟩
    intro hmem
    obtain ⟨g, hg, hgp⟩ := List.mem_map.mp hmem
    exact hhas (by
      unfold branchHas
      exact List.any_eq_true.mpr ⟨g, hg, by simp [hgp]⟩)

/-- `branchRemove` keeps the uniqueness invariant. -/
theorem branchRemove_pathsNodup {entries : List TFile} {path : String}
    (h : pathsNodup entries) : pathsNodup (branchRemove entries path) := by
  unfold branchRemove pathsNodup at *
  exact List.Nodup.sublist ((List.filter_sublist _).map _) h

/-- `branchMove` permutes the entries. -/
theorem branchMove_perm (entries : List TFile) (i j : Int) :
    (branchMove entries i j).Perm entries := by
  unfold branchMove
  split
  · exact List.Perm.refl _
  · split
    · exact List.Perm.refl _
    · split
      · exact List.Perm.refl _
      · split
        · exact List.Perm.refl _
        · rename_i entry hget
          obtain ⟨hlt, hentry⟩ := List.get?_eq_some.mp hget
          have hp1 : ((entries.eraseIdx i.toNat).take j.toNat ++ [entry] ++
              (entries.eraseIdx i.toNat).drop j.toNat).Perm
              (entry :: entries.eraseIdx i.toNat) := splice_perm _ _ _
          have hp2 : (entry :: entries.eraseIdx i.toNat).Perm entries := by
            rw [List.eraseIdx_eq_take_drop_succ]
            have hp3 : (entry ::
                (entries.take i.toNat ++ entries.drop (i.toNat + 1))).Perm
                (entries.take i.toNat ++ entry :: entries.drop (i.toNat + 1)) :=
              List.perm_middle.symm
            have hgetElem : entries[i.toNat] = entry := hentry
            have heq : entries.take i.toNat ++
                entry :: entries.drop (i.toNat + 1) = entries := by
              conv_rhs => rw [← List.take_append_drop i.toNat entries]
              congr 1
              rw [← List.getElem_cons_drop entries i.toNat hlt, hgetElem]
            rw [heq] at hp3
            exact hp3
          exact hp1.trans hp2

/-! ## Concrete instances used by witnesses -/

def fileA : TFile := { path := "A.md", basename := "A" }

def fileB : TFile := { path := "B.md", basename := "B" }

def fileC : TFile := { path := "C.md", basename := "C" }

/-- A vault whose link graph is the directed 3-cycle A → B → C → A. -/
def cycleVault : Vault :=
  { files := [fileA, fileB, fileC]
    contents := [("A.md", "alpha"), ("B.md", "beta"), ("C.md", "gamma")]
    resolvedLinks := [("A.md", ["B.md"]), ("B.md", ["C.md"]), ("C.md", ["A.md"])]
    backlinkCache := none }

def cycleCfg : BuilderConfig := { maxDepth := 5, maxAutoNotes := 12 }

/-! ## The claims -/

/-- C1: for every configuration with `maxDepth = D ≥ 0` and
`maxAutoNotes = N ≥ 1` and every seed, the chain equals the BFS discovery
order truncated to `N`; hence its length is `min
(N, number of documents reachable within D undirected hops)` (the discovery
order enumerates exactly the paths within `D` hops, without repetition), the
seed is first, and the order is the layer-by-layer BFS discovery order with
outgoing-before-incoming neighbor enumeration and the node itself excluded
(`specGenB` over `getConnectedFiles`). -/
theorem claim_C1_auto_chain_bfs_order (v : Vault) (cfg : BuilderConfig)
    (seed : TFile) (D : Nat) (hD : cfg.maxDepth = (D : Int))
    (hN : 1 ≤ cfg.maxAutoNotes) :
    buildAutoContextChain v cfg seed =
        (bfsDiscoveryOrder v cfg.maxDepth seed).take cfg.maxAutoNotes.toNat ∧
      (buildAutoContextChain v cfg seed).length =
        min cfg.maxAutoNotes.toNat (bfsDiscoveryOrder v cfg.maxDepth seed).length ∧
      (buildAutoContextChain v cfg seed).head? = some seed ∧
      (∀ p, p ∈ (bfsDiscoveryOrder v cfg.maxDepth seed).map (fun f => f.path) ↔
        ∃ f d, d ≤ D ∧ WithinDepth v seed f d ∧ f.path = p) ∧
      ((bfsDiscoveryOrder v cfg.maxDepth seed).map (fun f => f.path)).Nodup := by
  have hmax : max 1 cfg.maxAutoNotes = cfg.maxAutoNotes := max_eq_right hN
  have htake := buildAutoContextChain_take v cfg seed
  rw [hmax] at htake
  have hb : cfg.maxDepth.toNat = D := by omega
  refine ⟨htake, ?_, ?_, ?_, ?_⟩
  · rw [htake, List.length_take]
  · obtain ⟨t, hcons⟩ := bfsDiscoveryOrder_cons v cfg.maxDepth seed
    have h1 : 1 ≤ cfg.maxAutoNotes.toNat := by omega
    obtain ⟨m, hm⟩ : ∃ m, cfg.maxAutoNotes.toNat = m + 1 :=
      ⟨cfg.maxAutoNotes.toNat - 1, by omega⟩
    rw [htake, hcons, hm, List.take_succ_cons]
    rfl
  · intro p
    constructor
    · intro hp
      obtain ⟨f, hf, rfl⟩ := List.mem_map.mp hp
      obtain ⟨d, hd, hw⟩ := specGenB_sound cfg.maxDepth.toNat [seed] [] 0
        (by
          intro g hg
          rcases List.mem_singleton.mp hg with rfl
          exact ⟨0, le_refl _, WithinDepth.refl⟩) f hf
      exact ⟨f, d, by omega, hw, rfl⟩
    · rintro ⟨f, d, hd, hw, rfl⟩
      have hr : PReach v ([] ++ [seed].map (fun g => g.path)) f.path d :=
        withinDepth_preach hw
      have hc := specGenB_complete cfg.maxDepth.toNat [seed] []
        (by intro p hp; cases hp) (by omega) hr
      simpa [bfsDiscoveryOrder] using hc
  · exact (specGenB_nodup cfg.maxDepth.toNat [seed] [] []).1

/-- C1 witness: the theorem applied to the 3-cycle vault. -/
theorem claim_C1_auto_chain_bfs_order_witness :
    (cycleCfg.maxDepth = ((5 : Nat) : Int) ∧ 1 ≤ cycleCfg.maxAutoNotes) ∧
      (buildAutoContextChain cycleVault cycleCfg fileA =
          (bfsDiscoveryOrder cycleVault cycleCfg.maxDepth fileA).take
            cycleCfg.maxAutoNotes.toNat ∧
        (buildAutoContextChain cycleVault cycleCfg fileA).length =
          min cycleCfg.maxAutoNotes.toNat
            (bfsDiscoveryOrder cycleVault cycleCfg.maxDepth fileA).length ∧
        (buildAutoContextChain cycleVault cycleCfg fileA).head? = some fileA ∧
        (∀ p, p ∈ (bfsDiscoveryOrder cycleVault cycleCfg.maxDepth fileA).map
            (fun f => f.path) ↔
          ∃ f d, d ≤ 5 ∧ WithinDepth cycleVault fileA f d ∧ f.path = p) ∧
        ((bfsDiscoveryOrder cycleVault cycleCfg.maxDepth fileA).map
          (fun f => f.path)).Nodup) :=
  ⟨⟨by decide, by decide⟩,
    claim_C1_auto_chain_bfs_order cycleVault cycleCfg fileA 5 (by decide) (by decide)⟩

/-- C2: for every configuration and every seed, no two elements of the chain
produced by the auto traversal share a path. -/
theorem claim_C2_no_duplicate_paths (v : Vault) (cfg : BuilderConfig)
    (seed : TFile) :
    (buildAutoContextChain v cfg seed).Pairwise (fun f g => f.path ≠ g.path) := by
  rw [buildAutoContextChain_take]
  have h : ((bfsDiscoveryOrder v cfg.maxDepth seed).map (fun f => f.path)).Nodup :=
    (specGenB_nodup cfg.maxDepth.toNat [seed] [] []).1
  have hp : (bfsDiscoveryOrder v cfg.maxDepth seed).Pairwise
      (fun f g => f.path ≠ g.path) := List.pairwise_map.mp h
  exact hp.sublist (List.take_sublist _ _)

/-- C3: a document farther than `maxDepth` undirected hops from the seed
never enters the chain (every chain member is within `D` hops), even when
the chain holds fewer than `maxAutoNotes` documents; and when the count
bound does not truncate, every document within `D` hops — in particular one
discovered at exactly depth `D` — is in the chain, while documents only
reachable through a depth-`D` node (distance `D + 1`) stay excluded by the
first part. -/
theorem claim_C3_depth_gating (v : Vault) (cfg : BuilderConfig) (seed : TFile)
    (D : Nat) (hD : cfg.maxDepth = (D : Int)) (hN : 1 ≤ cfg.maxAutoNotes) :
    (∀ f ∈ buildAutoContextChain v cfg seed, ∃ d ≤ D, WithinDepth v seed f d) ∧
      ((bfsDiscoveryOrder v cfg.maxDepth seed).length ≤ cfg.maxAutoNotes.toNat →
        ∀ f d, d ≤ D → WithinDepth v seed f d →
          f.path ∈ (buildAutoContextChain v cfg seed).map (fun g => g.path)) := by
  have hb : cfg.maxDepth.toNat = D := by omega
  have htake := buildAutoContextChain_take v cfg seed
  constructor
  · intro f hf
    rw [htake] at hf
    have hf' : f ∈ bfsDiscoveryOrder v cfg.maxDepth seed :=
      List.mem_of_mem_take hf
    obtain ⟨d, hd, hw⟩ := specGenB_sound cfg.maxDepth.toNat [seed] [] 0
      (by
        intro g hg
        rcases List.mem_singleton.mp hg with rfl
        exact ⟨0, le_refl _, WithinDepth.refl⟩) f hf'
    exact ⟨d, by omega, hw⟩
  · intro hsize f d hd hw
    have hfull : (bfsDiscoveryOrder v cfg.maxDepth seed).take
        (max 1 cfg.maxAutoNotes).toNat = bfsDiscoveryOrder v cfg.maxDepth seed :=
      List.take_of_length_le (by omega)
    rw [htake, hfull]
    have hr : PReach v ([] ++ [seed].map (fun g => g.path)) f.path d :=
      withinDepth_preach hw
    have hc := specGenB_complete cfg.maxDepth.toNat [seed] []
      (by intro p hp; cases hp) (by omega) hr
    simpa [bfsDiscoveryOrder] using hc

/-- C3 witness: the theorem applied to the 3-cycle vault. -/
theorem claim_C3_depth_gating_witness :
    (cycleCfg.maxDepth = ((5 : Nat) : Int) ∧ 1 ≤ cycleCfg.maxAutoNotes) ∧
      ((∀ f ∈ buildAutoContextChain cycleVault cycleCfg fileA,
          ∃ d ≤ 5, WithinDepth cycleVault fileA f d) ∧
        ((bfsDiscoveryOrder cycleVault cycleCfg.maxDepth fileA).length ≤
            cycleCfg.maxAutoNotes.toNat →
          ∀ f d, d ≤ 5 → WithinDepth cycleVault fileA f d →
            f.path ∈ (buildAutoContextChain cycleVault cycleCfg fileA).map
              (fun g => g.path))) :=
  ⟨⟨by decide, by decide⟩,
    claim_C3_depth_gating cycleVault cycleCfg fileA 5 (by decide) (by decide)⟩

/-- C4: the chain length never exceeds the configured maximum, where a
maximum below 1 is clamped to an effective cap of 1 rather than failing —
the build still returns a (nonempty, seed-headed) chain. -/
theorem claim_C4_size_bound (v : Vault) (cfg : BuilderConfig) (seed : TFile) :
    ((buildAutoContextChain v cfg seed).length : Int) ≤ max 1 cfg.maxAutoNotes ∧
      (1 ≤ cfg.maxAutoNotes →
        ((buildAutoContextChain v cfg seed).length : Int) ≤ cfg.maxAutoNotes) ∧
      (cfg.maxAutoNotes < 1 → (buildAutoContextChain v cfg seed).length ≤ 1) ∧
      buildAutoContextChain v cfg seed ≠ [] := by
  have htake := buildAutoContextChain_take v cfg seed
  have hlen : (buildAutoContextChain v cfg seed).length ≤
      (max 1 cfg.maxAutoNotes).toNat := by
    rw [htake]
    simpa using List.length_take_le _ _
  refine ⟨by omega, fun h => by omega, fun h => by omega, ?_⟩
  obtain ⟨t, hcons⟩ := bfsDiscoveryOrder_cons v cfg.maxDepth seed
  obtain ⟨m, hm⟩ : ∃ m, (max 1 cfg.maxAutoNotes).toNat = m + 1 :=
    ⟨(max 1 cfg.maxAutoNotes).toNat - 1, by omega⟩
  rw [htake, hcons, hm, List.take_succ_cons]
  simp

/-- C9: the traversal terminates on cyclic graphs — on the 3-cycle
A → B → C → A it returns the full cycle (undirected BFS from `A` reaches
both `B` and `C` in one hop) — and on every finite graph the visited set
accepts each path at most once: the chain's path list is duplicate-free. -/
theorem claim_C9_cycle_termination :
    buildAutoContextChain cycleVault cycleCfg fileA = [fileA, fileB, fileC] ∧
      ∀ (v : Vault) (cfg : BuilderConfig) (seed : TFile),
        ((buildAutoContextChain v cfg seed).map (fun f => f.path)).Nodup := by
  constructor
  · rw [buildAutoContextChain_take]
    decide
  · intro v cfg seed
    rw [buildAutoContextChain_take]
    exact ((specGenB_nodup cfg.maxDepth.toNat [seed] [] []).1).sublist
      ((List.take_sublist _ _).map _)

/-- C5: the strategy is decided afresh per build call by precedence —
non-empty explicit list (ManualChain on that list), else non-empty
persistent branch list (ManualChain on its snapshot), else AutoTraversal
from the active seed; an explicitly supplied empty list does not select
ManualChain.  Both deciders are pure functions of the call's inputs, so no
mode persists across calls. -/
theorem claim_C5_strategy_precedence :
    (∀ (notes branch : List TFile) (active : TFile), notes ≠ [] →
      processThoughtStrategy (some notes) branch active =
        ContextSource.manualExplicit notes) ∧
    (∀ (branch : List TFile) (active : TFile), branch ≠ [] →
      processThoughtStrategy none branch active =
          ContextSource.manualBranch branch ∧
        processThoughtStrategy (some []) branch active =
          ContextSource.manualBranch branch) ∧
    (∀ active : TFile,
      processThoughtStrategy none [] active = ContextSource.autoTraversal active ∧
      processThoughtStrategy (some []) [] active =
        ContextSource.autoTraversal active) ∧
    (∀ (branch : List TFile) (active : TFile), branch ≠ [] →
      generateResponseStrategy branch active =
        ContextSource.manualBranch branch) ∧
    (∀ active : TFile,
      generateResponseStrategy [] active = ContextSource.autoTraversal active) := by
  refine ⟨?_, ?_, ?_, ?_, ?_⟩
  · intro notes branch active h
    have : 0 < notes.length := List.length_pos.mpr h
    simp [processThoughtStrategy, this]
  · intro branch active h
    have : 0 < branch.length := List.length_pos.mpr h
    exact ⟨by simp [processThoughtStrategy, this],
      by simp [processThoughtStrategy, this]⟩
  · intro active
    exact ⟨by simp [processThoughtStrategy], by simp [processThoughtStrategy]⟩
  · intro branch active h
    have : 0 < branch.length := List.length_pos.mpr h
    simp [generateResponseStrategy, this]
  · intro active
    simp [generateResponseStrategy]

/-- C5 witness: the explicit list wins over a non-empty branch list. -/
theorem claim_C5_strategy_precedence_witness :
    ([fileA] ≠ ([] : List TFile)) ∧
      processThoughtStrategy (some [fileA]) [fileB] fileC =
        ContextSource.manualExplicit [fileA] :=
  ⟨by decide, claim_C5_strategy_precedence.1 [fileA] [fileB] fileC (by decide)⟩

/-- C6: when reading any one chain document fails at format time, the whole
build fails: the result is an error naming a failing document's path, and no
formatted output is returned. -/
theorem claim_C6_read_failure_fails_build (v : Vault) (notes : List TFile)
    (f : TFile) (hf : f ∈ notes) (herr : ∀ c, vaultRead v f ≠ Except.ok c) :
    ∃ g, g ∈ notes ∧
      vaultRead v g = Except.error ("File not found: " ++ g.path) ∧
      buildContextFromNotes v notes =
        Except.error ("File not found: " ++ g.path) ∧
      ∀ s, buildContextFromNotes v notes ≠ Except.ok s := by
  obtain ⟨g, hg, hgerr, hfmt⟩ := formatNotes_error hf (vaultRead_error herr)
  refine ⟨g, hg, hgerr, hfmt, ?_⟩
  intro s hs
  rw [buildContextFromNotes, hfmt] at hs
  cases hs

def fileD : TFile := { path := "D.md", basename := "D" }

/-- C6 witness: a chain holding a document absent from the store. -/
theorem claim_C6_read_failure_fails_build_witness :
    (fileD ∈ [fileA, fileD] ∧ ∀ c, vaultRead cycleVault fileD ≠ Except.ok c) ∧
      ∃ g, g ∈ [fileA, fileD] ∧
        vaultRead cycleVault g = Except.error ("File not found: " ++ g.path) ∧
        buildContextFromNotes cycleVault [fileA, fileD] =
          Except.error ("File not found: " ++ g.path) ∧
        ∀ s, buildContextFromNotes cycleVault [fileA, fileD] ≠ Except.ok s :=
  have herr : ∀ c, vaultRead cycleVault fileD ≠ Except.ok c := by
    intro c hc
    rw [show vaultRead cycleVault fileD =
      Except.error ("File not found: " ++ fileD.path) from rfl] at hc
    cases hc
  ⟨⟨by decide, herr⟩,
    claim_C6_read_failure_fails_build cycleVault [fileA, fileD] fileD
      (by decide) herr⟩

/-- C8: `buildContextFromNotes` formats exactly the given list in the given
order — duplicates included, no reordering, no depth or count bound, with no
dependence on the link graph — and on the empty list yields the empty
string. -/
theorem claim_C8_manual_passthrough (v : Vault) (notes : List TFile)
    (c : TFile → String) (h : ∀ f ∈ notes, vaultRead v f = Except.ok (c f)) :
    buildContextFromNotes v notes = Except.ok (String.join (notes.map (fun f =>
        "--- [Note: " ++ f.basename ++ "] ---\n" ++ stripLinks (c f) ++ "\n\n"))) ∧
      buildContextFromNotes v ([] : List TFile) = Except.ok "" :=
  ⟨formatNotes_ok c h, rfl⟩

/-- C8 witness: a duplicated two-element list is formatted twice, in order. -/
theorem claim_C8_manual_passthrough_witness :
    (∀ f ∈ [fileA, fileA], vaultRead cycleVault f = Except.ok "alpha") ∧
      (buildContextFromNotes cycleVault [fileA, fileA] =
          Except.ok (String.join ([fileA, fileA].map (fun f =>
            "--- [Note: " ++ f.basename ++ "] ---\n" ++
              stripLinks "alpha" ++ "\n\n"))) ∧
        buildContextFromNotes cycleVault ([] : List TFile) = Except.ok "") :=
  have hreads : ∀ f ∈ [fileA, fileA], vaultRead cycleVault f = Except.ok "alpha" := by
    intro f hf
    rcases List.mem_cons.mp hf with rfl | hf'
    · rfl
    · rcases List.mem_singleton.mp hf' with rfl
      rfl
  ⟨hreads,
    claim_C8_manual_passthrough cycleVault [fileA, fileA] (fun _ => "alpha") hreads⟩

/-- C10: the branch store never holds two entries with the same path —
adding an already-present path leaves the store unchanged, and add, remove,
move and clear all preserve path uniqueness. -/
theorem claim_C10_branch_uniqueness :
    (∀ (entries : List TFile) (file : TFile) (index : Option Int),
      branchHas entries file = true → branchAdd entries file index = entries) ∧
    (∀ (entries : List TFile) (file : TFile) (index : Option Int),
      pathsNodup entries → pathsNodup (branchAdd entries file index)) ∧
    (∀ (entries : List TFile) (path : String),
      pathsNodup entries → pathsNodup (branchRemove entries path)) ∧
    (∀ (entries : List TFile) (i j : Int),
      pathsNodup entries → pathsNodup (branchMove entries i j)) ∧
    (∀ entries : List TFile, pathsNodup (branchClear entries)) := by
  refine ⟨?_, ?_, ?_, ?_, ?_⟩
  · intro entries file index h
    unfold branchAdd
    rw [if_pos h]
  · intro _ _ _ h
    exact branchAdd_pathsNodup h
  · intro _ _ h
    exact branchRemove_pathsNodup h
  · intro entries i j h
    exact pathsNodup_of_perm (branchMove_perm entries i j) h
  · intro entries
    unfold pathsNodup branchClear
    simp

/-- C10 witness: duplicate add rejected; a concrete move keeps uniqueness. -/
theorem claim_C10_branch_uniqueness_witness :
    (branchHas [fileA] fileA = true ∧ branchAdd [fileA] fileA none = [fileA]) ∧
      (pathsNodup [fileA, fileB] ∧ pathsNodup (branchMove [fileA, fileB] 0 1)) :=
  ⟨⟨by decide, claim_C10_branch_uniqueness.1 [fileA] fileA none (by decide)⟩,
    ⟨by unfold pathsNodup; decide,
      claim_C10_branch_uniqueness.2.2.2.1 [fileA, fileB] 0 1
        (by unfold pathsNodup; decide)⟩⟩

/-- C7: when a document's content holds no well-formed wiki-link markup, its
formatted block is the content unchanged between the added header line and
the trailing blank-line footer; every well-formed `[[...]]` span after a
bracket-free prefix is removed whole — an aliased span `[[Target|Alias]]`
disappears entirely rather than being replaced by `Alias` — and the spec's
scenario evaluates accordingly. -/
theorem claim_C7_link_stripping :
    (∀ (v : Vault) (f : TFile) (content : String),
        vaultRead v f = Except.ok content → hasLink content.data = false →
        formatSingleNote v f = Except.ok
          ("--- [Note: " ++ f.basename ++ "] ---\n" ++ content ++ "\n\n")) ∧
    (∀ pre target al post : String, '[' ∉ pre.data →
        (∀ c ∈ target.data,
          c ≠ ']' ∧ c ≠ '\n' ∧ c ≠ '\r' ∧ c ≠ '\u2028' ∧ c ≠ '\u2029') →
        (∀ c ∈ al.data,
          c ≠ ']' ∧ c ≠ '\n' ∧ c ≠ '\r' ∧ c ≠ '\u2028' ∧ c ≠ '\u2029') →
        stripLinks (pre ++ "[[" ++ target ++ "|" ++ al ++ "]]" ++ post) =
          pre ++ stripLinks post) ∧
    stripLinks "See [[Other Note|here]] for more." = "See  for more." := by
  refine ⟨?_, ?_, ?_⟩
  · intro v f content hok hnolink
    have hstrip : stripLinks content = content := by
      unfold stripLinks
      rw [stripAux_of_not_hasLink hnolink]
    rw [formatSingleNote]
    simp only [hok, bind, Except.bind, hstrip, pure, Except.pure]
  · intro pre target al post hpre ht ha
    have hin : ∀ c ∈ target.data ++ '|' :: al.data,
        c ≠ ']' ∧ c ≠ '\n' ∧ c ≠ '\r' ∧ c ≠ '\u2028' ∧ c ≠ '\u2029' := by
      intro c hc
      rcases List.mem_append.mp hc with h | h
      · exact ht c h
      · rcases List.mem_cons.mp h with rfl | h'
        · refine ⟨by decide, by decide, by decide, by decide, by decide⟩
        · exact ha c h'
    have hs := @stripAux_span pre.data (target.data ++ '|' :: al.data)
      post.data hpre hin
    show (⟨stripAux (pre ++ "[[" ++ target ++ "|" ++ al ++ "]]" ++ post).data⟩ :
        String) = pre ++ (⟨stripAux post.data⟩ : String)
    have hdata : (pre ++ "[[" ++ target ++ "|" ++ al ++ "]]" ++ post).data =
        pre.data ++ '[' :: '[' ::
          ((target.data ++ '|' :: al.data) ++ ']' :: ']' :: post.data) := by
      simp [String.data_append]
    rw [hdata, hs]
    show String.mk (pre.data ++ stripAux post.data) = pre ++ String.mk (stripAux post.data)
    rfl
  · simp [stripLinks, stripAux, findClose]

/-- C7 witness: an unlinked document and the spec's aliased-link scenario. -/
theorem claim_C7_link_stripping_witness :
    ((vaultRead cycleVault fileA = Except.ok "alpha" ∧
        hasLink ("alpha" : String).data = false) ∧
      formatSingleNote cycleVault fileA = Except.ok
        ("--- [Note: " ++ fileA.basename ++ "] ---\n" ++ "alpha" ++ "\n\n")) ∧
      (('[' ∉ ("See " : String).data) ∧
        stripLinks ("See " ++ "[[" ++ "Other Note" ++ "|" ++ "here" ++ "]]" ++
            " for more.") = "See " ++ stripLinks " for more.") :=
  ⟨⟨⟨rfl, by decide⟩,
      claim_C7_link_stripping.1 cycleVault fileA "alpha" rfl (by decide)⟩,
    ⟨by decide,
      claim_C7_link_stripping.2.1 "See " "Other Note" "here" " for more."
        (by decide) (by decide) (by decide)⟩⟩

/-- C4 witness: the bound at the default configuration. -/
theorem claim_C4_size_bound_witness :
    (1 ≤ cycleCfg.maxAutoNotes) ∧
      ((buildAutoContextChain cycleVault cycleCfg fileA).length : Int) ≤
        cycleCfg.maxAutoNotes :=
  ⟨by decide, (claim_C4_size_bound cycleVault cycleCfg fileA).2.1 (by decide)⟩
